import Mathlib

/-!
Shallow embedding of the core data model of the grovedbg repository:
the subtree reconciliation model (src/model.rs), the proof stack machine
(src/protocol/proof_tree.rs), the path interner (src/path_ctx.rs and
src/model/path_display.rs), the reference-rewriting conversions
(src/fetch/proto_conversion.rs) and the tree-of-subtrees operations
(src/model.rs, src/tree_data.rs).

Byte strings are modelled as lists of naturals; none of the embedded
algorithms depends on bytes being below 256.  UI-only fields (display
variants, egui state, visibility flags) are omitted: they do not take part
in any of the embedded algorithms.  Maps keyed by byte strings are
modelled as functions into Option; sets of keys as Finset.
-/

namespace GroveDbg

/-- Byte string, the model of Vec of u8 used for keys (model.rs Key). -/
abbrev Key := List Nat

/-- Crypto hash payload (grovedbg-types CryptoHash), kept abstract. -/
abbrev HashBytes := List Nat

/-- Element of a subtree node, from model.rs enum Element.  The interned
path held by a Reference is represented by its segment byte sequence. -/
inductive Element where
  | Item (value : List Nat) (element_flags : Option (List Nat))
  | SumItem (value : Int) (element_flags : Option (List Nat))
  | Reference (path : List Key) (key : Key) (element_flags : Option (List Nat))
  | Sumtree (root_key : Option Key) (sum : Int) (element_flags : Option (List Nat))
  | Subtree (root_key : Option Key) (element_flags : Option (List Nat))
  | SubtreePlaceholder
deriving DecidableEq, Repr

/-- Node of a subtree, from model.rs struct Node (ui_state omitted,
feature_type kept abstract as a natural number tag). -/
structure Node where
  element : Element
  left_child : Option Key
  right_child : Option Key
  feature_type : Option Nat
  value_hash : Option HashBytes
  kv_digest_hash : Option HashBytes
deriving DecidableEq, Repr

/-- Node.new_subtree_placeholder from model.rs. -/
def Node.new_subtree_placeholder : Node :=
  { element := Element.SubtreePlaceholder
    left_child := none
    right_child := none
    feature_type := none
    value_hash := none
    kv_digest_hash := none }

/-- The children of a node in the order the source visits them:
left child first, then right child. -/
def Node.childKeys (n : Node) : List Key :=
  n.left_child.toList ++ n.right_child.toList

/-- Node::new_item of the model.rs tests together with the
with_left_child and with_right_child builders. -/
def Node.new_item (value : List Nat) (l r : Option Key) : Node :=
  { element := Element.Item value none
    left_child := l
    right_child := r
    feature_type := none
    value_hash := none
    kv_digest_hash := none }

/-- Subtree state, from model.rs struct Subtree (ui_state omitted).
The nodes BTreeMap is modelled as a function into Option. -/
structure Subtree where
  root_node : Option Key
  cluster_roots : Finset Key
  nodes : Key → Option Node
  waitlist : Finset Key

/-- Subtree::new (Default). -/
def Subtree.new : Subtree :=
  { root_node := none, cluster_roots := ∅, nodes := fun _ => none, waitlist := ∅ }

instance : Inhabited Subtree := ⟨Subtree.new⟩

/-- Subtree::new_root. -/
def Subtree.new_root (root_node : Key) : Subtree :=
  { Subtree.new with root_node := some root_node }

/-- Sequential erase of the child keys from the waitlist, as done at the
start of Subtree::remove. -/
def eraseAll (wl : Finset Key) (cs : List Key) : Finset Key :=
  cs.foldl (fun acc c => acc.erase c) wl

/-- Sequential insertion of the children still present in the nodes map
into cluster_roots, as done by Subtree::remove. -/
def insertPresent (nodes : Key → Option Node) (cr : Finset Key) (cs : List Key) : Finset Key :=
  cs.foldl (fun acc c => if (nodes c).isSome then insert c acc else acc) cr

/-- The child_updates closure of Subtree::insert, folded over the node
children: a missing child is waitlisted, and every child stops being a
cluster root. -/
def childUpdates (nodes : Key → Option Node) (st : Finset Key × Finset Key)
    (cs : List Key) : Finset Key × Finset Key :=
  cs.foldl
    (fun acc c =>
      (if (nodes c).isSome then acc.1 else insert c acc.1, acc.2.erase c))
    st

/-- Whether the root_node differs from the key, the
root_node.as_ref().map(|r| r != key).unwrap_or(true) pattern of model.rs. -/
def rootNe (root : Option Key) (key : Key) : Bool :=
  match root with
  | some r => r != key
  | none => true

/-- Subtree::remove from model.rs: delete the node, un-wait its children,
turn its still-present children into cluster roots, and waitlist the
removed key itself unless it is the root or a cluster root. -/
def Subtree.removeOp (s : Subtree) (key : Key) : Subtree :=
  match s.nodes key with
  | none => s
  | some node =>
    let nodes1 : Key → Option Node := fun k => if k = key then none else s.nodes k
    let wl1 := eraseAll s.waitlist node.childKeys
    let cr1 := insertPresent nodes1 s.cluster_roots node.childKeys
    let wl2 := if rootNe s.root_node key = true ∧ key ∉ cr1 then insert key wl1 else wl1
    { root_node := s.root_node, cluster_roots := cr1, nodes := nodes1, waitlist := wl2 }

/-- Subtree::insert from model.rs: remove first (re-insert semantics),
then satisfy or create the wait entry for the key, process the children,
and store the node. -/
def Subtree.insertOp (s : Subtree) (key : Key) (node : Node) : Subtree :=
  let s1 := s.removeOp key
  let wlcrA : Finset Key × Finset Key :=
    if key ∈ s1.waitlist then (s1.waitlist.erase key, s1.cluster_roots)
    else if rootNe s1.root_node key = true then
      (s1.waitlist, insert key s1.cluster_roots)
    else (s1.waitlist, s1.cluster_roots)
  let wlcrB := childUpdates s1.nodes wlcrA node.childKeys
  { root_node := s1.root_node
    cluster_roots := wlcrB.2
    nodes := fun k => if k = key then some node else s1.nodes k
    waitlist := wlcrB.1 }

/-- Subtree::insert_not_exists from model.rs. -/
def Subtree.insert_not_exists (s : Subtree) (key : Key) (node : Node) : Subtree :=
  if (s.nodes key).isSome then s else s.insertOp key node

/-- States of one Subtree reachable from the empty or root-only state by
insert and remove operations (the quantifier of the invariant claims). -/
inductive Subtree.Reach : Subtree → Prop where
  | empty : Subtree.Reach Subtree.new
  | root (k : Key) : Subtree.Reach (Subtree.new_root k)
  | insert {s : Subtree} (k : Key) (n : Node) :
      Subtree.Reach s → Subtree.Reach (s.insertOp k n)
  | remove {s : Subtree} (k : Key) :
      Subtree.Reach s → Subtree.Reach (s.removeOp k)

/-- Reachability restricted to inserts whose node does not list its own
key among its children. -/
inductive Subtree.ReachSafe : Subtree → Prop where
  | empty : Subtree.ReachSafe Subtree.new
  | root (k : Key) : Subtree.ReachSafe (Subtree.new_root k)
  | insert {s : Subtree} (k : Key) (n : Node) :
      n.left_child ≠ some k → n.right_child ≠ some k →
      Subtree.ReachSafe s → Subtree.ReachSafe (s.insertOp k n)
  | remove {s : Subtree} (k : Key) :
      Subtree.ReachSafe s → Subtree.ReachSafe (s.removeOp k)

/-- The invariant of claim C2: cluster_roots and waitlist are disjoint,
and no waitlisted key has a node. -/
def Subtree.Inv (s : Subtree) : Prop :=
  s.cluster_roots ∩ s.waitlist = ∅ ∧ ∀ k ∈ s.waitlist, s.nodes k = none

/-! Proof stack machine, src/protocol/proof_tree.rs. -/

/-- Payload of a proof node (grovedbg-types MerkProofNode).  Its variants
are opaque to the stack machine, so the payload is abstracted. -/
structure MerkProofNode where
  payload : Nat
deriving DecidableEq, Repr

/-- Proof operation, grovedbg-types MerkProofOp. -/
inductive MerkProofOp where
  | Push (v : MerkProofNode)
  | PushInverted (v : MerkProofNode)
  | Parent
  | Child
  | ParentInverted
  | ChildInverted
deriving DecidableEq, Repr

/-- ProofNode from proof_tree.rs; node_update is always None during
reconstruction and its payload is abstracted. -/
structure ProofNode where
  left : Option Nat
  right : Option Nat
  proof_value : MerkProofNode
  node_update : Option Nat
deriving DecidableEq, Repr

/-- From conversion of a MerkProofNode into a fresh ProofNode. -/
def ProofNode.ofValue (v : MerkProofNode) : ProofNode :=
  { left := none, right := none, proof_value := v, node_update := none }

/-- ProofSubtree from proof_tree.rs. -/
structure ProofSubtree where
  tree : List ProofNode
  root : Nat
deriving DecidableEq, Repr

/-- tree[idx].left = Some(child) of the source; out-of-range indices never
occur because every stacked index was produced by a push. -/
def setLeft (tree : List ProofNode) (idx child : Nat) : List ProofNode :=
  match tree.get? idx with
  | some nd => tree.set idx { nd with left := some child }
  | none => tree

/-- tree[idx].right = Some(child) of the source. -/
def setRight (tree : List ProofNode) (idx child : Nat) : List ProofNode :=
  match tree.get? idx with
  | some nd => tree.set idx { nd with right := some child }
  | none => tree

/-- The op loop of ProofSubtree::from_iter.  The stack of node indices is
a list with its head as the top; the node vector grows at the end, so a
pushed index is the current length of the vector.  Error strings are the
anyhow contexts of the source. -/
def fromIterLoop : List MerkProofOp → List ProofNode → List Nat →
    Except String (List ProofNode × List Nat)
  | [], tree, stack => Except.ok (tree, stack)
  | MerkProofOp.Push v :: rest, tree, stack =>
      fromIterLoop rest (tree ++ [ProofNode.ofValue v]) (tree.length :: stack)
  | MerkProofOp.PushInverted v :: rest, tree, stack =>
      fromIterLoop rest (tree ++ [ProofNode.ofValue v]) (tree.length :: stack)
  | MerkProofOp.Parent :: rest, tree, stack =>
      match stack with
      | [] => Except.error "expected a parent item on the proof stack"
      | [_] => Except.error "expected a child item on the proof stack"
      | parentIdx :: childIdx :: stackRest =>
          fromIterLoop rest (setLeft tree parentIdx childIdx) (parentIdx :: stackRest)
  | MerkProofOp.Child :: rest, tree, stack =>
      match stack with
      | [] => Except.error "expected a child item on the proof stack"
      | [_] => Except.error "expected a parent item on the proof stack"
      | childIdx :: parentIdx :: stackRest =>
          fromIterLoop rest (setRight tree parentIdx childIdx) (parentIdx :: stackRest)
  | MerkProofOp.ParentInverted :: rest, tree, stack =>
      match stack with
      | [] => Except.error "expected a parent item on the proof stack"
      | [_] => Except.error "expected a child item on the proof stack"
      | parentIdx :: childIdx :: stackRest =>
          fromIterLoop rest (setRight tree parentIdx childIdx) (parentIdx :: stackRest)
  | MerkProofOp.ChildInverted :: rest, tree, stack =>
      match stack with
      | [] => Except.error "expected a child item on the proof stack"
      | [_] => Except.error "expected a parent item on the proof stack"
      | childIdx :: parentIdx :: stackRest =>
          fromIterLoop rest (setLeft tree parentIdx childIdx) (parentIdx :: stackRest)

/-- ProofSubtree::from_iter: run the op loop from empty state and require
a final stack of exactly one index, which becomes the root. -/
def ProofSubtree.from_iter (ops : List MerkProofOp) : Except String ProofSubtree :=
  match fromIterLoop ops [] [] with
  | Except.error e => Except.error e
  | Except.ok (tree, stack) =>
      match stack with
      | [root] => Except.ok { tree := tree, root := root }
      | _ => Except.error "the proof stack must contain only one item"

/-- Stack-size semantics of the op sequence as the spec describes it: a
push puts the next fresh node index on the stack, the four attach ops pop
two indices and push the parent index back (the first popped for the
Parent forms, the second popped for the Child forms), and a pop from a
stack with fewer than two items is a failure (none). -/
def specStackRun : List MerkProofOp → Nat → List Nat → Option (List Nat)
  | [], _, stack => some stack
  | MerkProofOp.Push _ :: rest, cnt, stack => specStackRun rest (cnt + 1) (cnt :: stack)
  | MerkProofOp.PushInverted _ :: rest, cnt, stack => specStackRun rest (cnt + 1) (cnt :: stack)
  | MerkProofOp.Parent :: rest, cnt, stack =>
      match stack with
      | a :: _ :: r => specStackRun rest cnt (a :: r)
      | _ => none
  | MerkProofOp.Child :: rest, cnt, stack =>
      match stack with
      | _ :: b :: r => specStackRun rest cnt (b :: r)
      | _ => none
  | MerkProofOp.ParentInverted :: rest, cnt, stack =>
      match stack with
      | a :: _ :: r => specStackRun rest cnt (a :: r)
      | _ => none
  | MerkProofOp.ChildInverted :: rest, cnt, stack =>
      match stack with
      | _ :: b :: r => specStackRun rest cnt (b :: r)
      | _ => none

/-- Whether an optional final stack has exactly one index. -/
def isSingle : Option (List Nat) → Bool
  | some [_] => true
  | _ => false

/-- Whether a fallible computation succeeded. -/
def exceptOkb {α : Type} (e : Except String α) : Bool :=
  match e with
  | Except.ok _ => true
  | Except.error _ => false

/-! Path interner, src/path_ctx.rs and src/model/path_display.rs.  Both
files define the same interner (a slab of segments with parent and
children links); segment ids are slab indices.  The slab never frees
entries, so a fresh id is the current slab length.  UI-only segment
fields (display variant, visibility, profile alias) are omitted: the
source mutates only those after creation. -/

/-- PathSegment of the interner (identity-relevant fields). -/
structure PathSegment where
  parent_slab_id : Option Nat
  children_slab_ids : List Nat
  bytes : Key
  level : Nat
deriving DecidableEq, Repr

/-- PathCtx: the slab of segments plus the list of root children ids. -/
structure PathCtx where
  slab : List PathSegment
  root_children_slab_ids : List Nat
deriving DecidableEq, Repr

/-- PathCtx::new. -/
def PathCtx.new : PathCtx := { slab := [], root_children_slab_ids := [] }

/-- A Path handle is the optional head segment id (None is the root);
the owning interner is passed explicitly. -/
abbrev PathId := Option Nat

/-- The children id list under a path head: the root children list for
the root, otherwise the children of the head segment. -/
def PathCtx.childrenOf (ctx : PathCtx) (p : PathId) : List Nat :=
  match p with
  | none => ctx.root_children_slab_ids
  | some id => ((ctx.slab.get? id).map (·.children_slab_ids)).getD []

/-- Path::level: the cached level of the head segment, root level 0. -/
def PathCtx.levelOf (ctx : PathCtx) (p : PathId) : Nat :=
  match p with
  | none => 0
  | some id => ((ctx.slab.get? id).map (·.level)).getD 0

/-- The bytes of a segment id, when the id is live. -/
def PathCtx.bytesAt (ctx : PathCtx) (id : Nat) : Option Key :=
  (ctx.slab.get? id).map (·.bytes)

/-- Path::child: search the children of the head for a segment with the
given bytes; reuse it when found, otherwise allocate a new segment at the
end of the slab and append its id to the children list of the parent (or
to the root children list).  Returns the updated interner and the handle. -/
def PathCtx.child (ctx : PathCtx) (p : PathId) (key : Key) : PathCtx × PathId :=
  match (ctx.childrenOf p).find? (fun id => ctx.bytesAt id == some key) with
  | some cid => (ctx, some cid)
  | none =>
    let lvl := ctx.levelOf p
    let nid := ctx.slab.length
    let seg : PathSegment :=
      { parent_slab_id := p, children_slab_ids := [], bytes := key, level := lvl + 1 }
    match p with
    | none =>
        ({ slab := ctx.slab ++ [seg]
           root_children_slab_ids := ctx.root_children_slab_ids ++ [nid] },
         some nid)
    | some pid =>
        let slab1 := ctx.slab ++ [seg]
        let pseg := (slab1.get? pid).getD seg
        let slab2 :=
          slab1.set pid
            { pseg with children_slab_ids := pseg.children_slab_ids ++ [nid] }
        ({ slab := slab2, root_children_slab_ids := ctx.root_children_slab_ids },
         some nid)

/-- Well-formed interner: every id stored in the root children list or in
a children list of a segment is a live slab index. -/
def PathCtx.WF (ctx : PathCtx) : Prop :=
  (∀ id ∈ ctx.root_children_slab_ids, id < ctx.slab.length) ∧
  (∀ seg ∈ ctx.slab, ∀ id ∈ seg.children_slab_ids, id < ctx.slab.length)

instance (ctx : PathCtx) : Decidable (PathCtx.WF ctx) := by
  unfold PathCtx.WF; infer_instance

/-- A handle is valid when its head id is live. -/
def PathCtx.validPath (ctx : PathCtx) (p : PathId) : Prop :=
  match p with
  | none => True
  | some id => id < ctx.slab.length

instance (ctx : PathCtx) (p : PathId) : Decidable (PathCtx.validPath ctx p) := by
  unfold PathCtx.validPath
  match p with
  | none => exact inferInstanceAs (Decidable True)
  | some id => exact inferInstanceAs (Decidable (id < ctx.slab.length))

/-- PartialEq for Path: head ids compared, nothing else. -/
def pathEqb (p q : PathId) : Bool := p == q

/-- The byte sequence written by the Hash implementation of Path: the
segment bytes from the root down to the head, collected by walking the
parent links.  Fuel bounds the walk; the slab length suffices for every
state the interner constructs. -/
def seqBytesAux (ctx : PathCtx) : Nat → PathId → List Key
  | _, none => []
  | 0, some _ => []
  | fuel + 1, some id =>
    match ctx.slab.get? id with
    | none => []
    | some seg => seqBytesAux ctx fuel seg.parent_slab_id ++ [seg.bytes]

/-- Hash input of a Path handle (the for_segments byte walk). -/
def pathHashInput (ctx : PathCtx) (p : PathId) : List Key :=
  seqBytesAux ctx ctx.slab.length p

/-- Comparison of optional segment ids (Rust Option Ord: None first). -/
def optNatCmp : Option Nat → Option Nat → Ordering
  | none, none => Ordering.eq
  | none, some _ => Ordering.lt
  | some _, none => Ordering.gt
  | some a, some b => compare a b

/-- Ord for Path: level first, then head id (the PartialOrd of the
source). -/
def pathCmp (ctx : PathCtx) (p q : PathId) : Ordering :=
  (compare (ctx.levelOf p) (ctx.levelOf q)).then (optNatCmp p q)

/-! Reference conversions, src/fetch/proto_conversion.rs.  The converted
Element::Reference stores an interned path; the embedding returns the
segment sequence of that path together with the key, which is the data
the interner receives through add_path. -/

/-- The distinct conversion error: computed reference has no key. -/
inductive ReferenceWithoutKey where
  | mk
deriving DecidableEq, Repr

/-- Split a nonempty address into its path part and its last segment, the
path.pop() pattern of proto_conversion.rs. -/
def popLast (path : List Key) : Option (List Key × Key) :=
  match path.reverse with
  | [] => none
  | k :: restRev => some (restRev.reverse, k)

/-- from_absolute_path_reference: the payload path carries the key as its
last segment. -/
def from_absolute_path_reference (path : List Key) :
    Except ReferenceWithoutKey (List Key × Key) :=
  match popLast path with
  | some pk => Except.ok pk
  | none => Except.error ReferenceWithoutKey.mk

/-- from_upstream_root_height_reference: keep the first n_keep segments
of the current path, append path_append, pop the key. -/
def from_upstream_root_height_reference (path : List Key) (nKeep : Nat)
    (pathAppend : List Key) : Except ReferenceWithoutKey (List Key × Key) :=
  match popLast (path.take nKeep ++ pathAppend) with
  | some pk => Except.ok pk
  | none => Except.error ReferenceWithoutKey.mk

/-- from_upstream_root_height_with_parent_path_addition_reference: take
the parent (last) segment off the current path first, keep n_keep of the
rest, append path_append, re-append the parent, pop the key. -/
def from_upstream_root_height_with_parent_path_addition_reference
    (path : List Key) (nKeep : Nat) (pathAppend : List Key) :
    Except ReferenceWithoutKey (List Key × Key) :=
  match popLast path with
  | none => Except.error ReferenceWithoutKey.mk
  | some (rest, parent) =>
    match popLast (rest.take nKeep ++ pathAppend ++ [parent]) with
    | some pk => Except.ok pk
    | none => Except.error ReferenceWithoutKey.mk

/-- from_upstream_element_height_reference: nth_back(n_remove) discards
the last n_remove + 1 segments, then path_append is appended and the key
popped. -/
def from_upstream_element_height_reference (path : List Key) (nRemove : Nat)
    (pathAppend : List Key) : Except ReferenceWithoutKey (List Key × Key) :=
  match popLast (path.take (path.length - (nRemove + 1)) ++ pathAppend) with
  | some pk => Except.ok pk
  | none => Except.error ReferenceWithoutKey.mk

/-- from_cousin_reference: swap the last segment of the current path for
swap_parent; the key of the referencing node stays the key. -/
def from_cousin_reference (path : List Key) (key : Key) (swapParent : Key) :
    Except ReferenceWithoutKey (List Key × Key) :=
  match popLast path with
  | some (rest, _) => Except.ok (rest ++ [swapParent], key)
  | none => Except.error ReferenceWithoutKey.mk

/-- from_removed_cousin_reference: pop the last segment of the current
path and extend with the swap_parent segment list; the key stays. -/
def from_removed_cousin_reference (path : List Key) (key : Key)
    (swapParent : List Key) : Except ReferenceWithoutKey (List Key × Key) :=
  match popLast path with
  | some (rest, _) => Except.ok (rest ++ swapParent, key)
  | none => Except.error ReferenceWithoutKey.mk

/-- from_sibling_reference: same path, the sibling key becomes the key;
this conversion is infallible in the source (it returns Element, not
Result). -/
def from_sibling_reference (path : List Key) (siblingKey : Key) :
    List Key × Key :=
  (path, siblingKey)

/-- Modelled from the spec: the cousin rewriting scheme described by the
specification replaces the last path component with the swap parent and
keeps the node key, so its computed address is the rewritten path followed
by the key.  On an empty current path nothing is replaced.  This
definition exists to compare the specification wording of the failure
condition (address empty after rewriting) with the source behaviour. -/
def cousinRewrittenAddressSpec (path : List Key) (key : Key)
    (swapParent : Key) : List Key :=
  (match popLast path with
   | some (rest, _) => rest ++ [swapParent]
   | none => []) ++ [key]

/-! Tree of subtrees, src/model.rs Tree and src/tree_data.rs.  The
subtrees BTreeMap is keyed by interned Path handles; within one interner
those are in bijection with segment byte sequences (the structural
sharing contract proved below), so the map is modelled as keyed by the
sequence. -/

/-- Tree: the path to subtree map (levels_heights and the interner
back-reference are UI and navigation glue). -/
structure Tree where
  subtrees : List Key → Option Subtree

/-- Point update of the subtrees map. -/
def Tree.updateAt (t : Tree) (p : List Key) (st : Subtree) : Tree :=
  { subtrees := fun q => if q = p then some st else t.subtrees q }

/-- subtrees.entry(path).or_default() when only existence matters. -/
def Tree.entryOrDefault (t : Tree) (p : List Key) : Tree :=
  match t.subtrees p with
  | some _ => t
  | none => t.updateAt p Subtree.new

/-- Tree::clear_subtree: drop all nodes of the subtree at the path, touch
nothing else; absent path is a no-op. -/
def Tree.clear_subtree (t : Tree) (path : List Key) : Tree :=
  match t.subtrees path with
  | some st => t.updateAt path { st with nodes := fun _ => none }
  | none => t

/-- Path::parent_with_key on sequences: the parent path and the edge
label of the last segment. -/
def parentWithKey (p : List Key) : Option (List Key × Key) :=
  match p.reverse with
  | [] => none
  | k :: restRev => some (restRev.reverse, k)

/-- The while-let loop of Tree::populate_subtrees_chain, encoded by
recursion on the reversed path: each step ensures the parent subtree
exists and records a placeholder node for the child key, then moves one
level up. -/
def Tree.populateRev (t : Tree) : List Key → Tree
  | [] => t
  | key :: restRev =>
    let parent := restRev.reverse
    let st := (t.subtrees parent).getD Subtree.new
    let t1 := t.updateAt parent (st.insert_not_exists key Node.new_subtree_placeholder)
    t1.populateRev restRev

/-- Tree::populate_subtrees_chain: ensure the target subtree exists, then
walk the parent chain recording placeholder nodes. -/
def Tree.populate_subtrees_chain (t : Tree) (path : List Key) : Tree :=
  (t.entryOrDefault path).populateRev path.reverse

/-! Helper lemmas about the subtree operations. -/

theorem mem_eraseAll (cs : List Key) (wl : Finset Key) (a : Key) :
    a ∈ eraseAll wl cs ↔ a ∈ wl ∧ a ∉ cs := by
  induction cs generalizing wl with
  | nil => simp [eraseAll]
  | cons c cs ih =>
    show a ∈ eraseAll (wl.erase c) cs ↔ _
    rw [ih]
    simp only [Finset.mem_erase, List.mem_cons]
    tauto

theorem mem_insertPresent (cs : List Key) (nodes : Key → Option Node)
    (cr : Finset Key) (a : Key) :
    a ∈ insertPresent nodes cr cs ↔ a ∈ cr ∨ (a ∈ cs ∧ (nodes a).isSome) := by
  induction cs generalizing cr with
  | nil => simp [insertPresent]
  | cons c cs ih =>
    show a ∈ insertPresent nodes (if (nodes c).isSome then insert c cr else cr) cs ↔ _
    rw [ih]
    by_cases hc : (nodes c).isSome
    · simp only [hc, if_true, Finset.mem_insert, List.mem_cons]
      by_cases hac : a = c
      · subst hac; tauto
      · tauto
    · simp only [hc, if_false, List.mem_cons]
      by_cases hac : a = c
      · subst hac; tauto
      · tauto

theorem childUpdates_mem_fst (cs : List Key) (nodes : Key → Option Node)
    (st : Finset Key × Finset Key) (a : Key) :
    a ∈ (childUpdates nodes st cs).1 ↔
      a ∈ st.1 ∨ (a ∈ cs ∧ nodes a = none) := by
  induction cs generalizing st with
  | nil => simp [childUpdates]
  | cons c cs ih =>
    show a ∈ (childUpdates nodes
      (if (nodes c).isSome then st.1 else insert c st.1, st.2.erase c) cs).1 ↔ _
    rw [ih]
    simp only [List.mem_cons]
    by_cases hc : (nodes c).isSome
    · rw [if_pos hc]
      constructor
      · rintro (h1 | h2)
        · exact Or.inl h1
        · exact Or.inr ⟨Or.inr h2.1, h2.2⟩
      · rintro (h1 | ⟨hac | hacs, hn⟩)
        · exact Or.inl h1
        · subst hac; rw [hn] at hc; simp at hc
        · exact Or.inr ⟨hacs, hn⟩
    · rw [if_neg hc]
      rw [Option.not_isSome_iff_eq_none] at hc
      simp only [Finset.mem_insert]
      constructor
      · rintro ((hac | h1) | h2)
        · subst hac; exact Or.inr ⟨Or.inl rfl, hc⟩
        · exact Or.inl h1
        · exact Or.inr ⟨Or.inr h2.1, h2.2⟩
      · rintro (h1 | ⟨hac | hacs, hn⟩)
        · exact Or.inl (Or.inr h1)
        · exact Or.inl (Or.inl hac)
        · exact Or.inr ⟨hacs, hn⟩

theorem childUpdates_mem_snd (cs : List Key) (nodes : Key → Option Node)
    (st : Finset Key × Finset Key) (a : Key) :
    a ∈ (childUpdates nodes st cs).2 ↔ a ∈ st.2 ∧ a ∉ cs := by
  induction cs generalizing st with
  | nil => simp [childUpdates]
  | cons c cs ih =>
    show a ∈ (childUpdates nodes
      (if (nodes c).isSome then st.1 else insert c st.1, st.2.erase c) cs).2 ↔ _
    rw [ih]
    simp only [Finset.mem_erase, List.mem_cons]
    tauto

theorem removeOp_of_absent {s : Subtree} {key : Key} (h : s.nodes key = none) :
    s.removeOp key = s := by
  simp [Subtree.removeOp, h]

theorem removeOp_root (s : Subtree) (key : Key) :
    (s.removeOp key).root_node = s.root_node := by
  unfold Subtree.removeOp
  cases h : s.nodes key <;> simp

theorem removeOp_nodes (s : Subtree) (key a : Key) :
    (s.removeOp key).nodes a = if a = key then none else s.nodes a := by
  unfold Subtree.removeOp
  cases h : s.nodes key with
  | none =>
    simp only
    by_cases hak : a = key
    · subst hak; simp [h]
    · simp [hak]
  | some node => simp

theorem removeOp_nodes_self (s : Subtree) (key : Key) :
    (s.removeOp key).nodes key = none := by
  simp [removeOp_nodes]

theorem removeOp_cr_mem {s : Subtree} {key : Key} {node : Node}
    (h : s.nodes key = some node) (a : Key) :
    a ∈ (s.removeOp key).cluster_roots ↔
      a ∈ s.cluster_roots ∨
        (a ∈ node.childKeys ∧ a ≠ key ∧ (s.nodes a).isSome) := by
  unfold Subtree.removeOp
  rw [h]
  simp only [mem_insertPresent]
  by_cases hak : a = key
  · subst hak; simp
  · simp [hak]

theorem removeOp_wl_mem {s : Subtree} {key : Key} {node : Node}
    (h : s.nodes key = some node) (a : Key) :
    a ∈ (s.removeOp key).waitlist ↔
      (a ∈ s.waitlist ∧ a ∉ node.childKeys) ∨
        (a = key ∧ rootNe s.root_node key = true ∧
          key ∉ (s.removeOp key).cluster_roots) := by
  conv_lhs => unfold Subtree.removeOp
  rw [h]
  simp only
  have hcr : (s.removeOp key).cluster_roots =
      insertPresent (fun k => if k = key then none else s.nodes k)
        s.cluster_roots node.childKeys := by
    unfold Subtree.removeOp; rw [h]
  rw [← hcr]
  by_cases hcond : rootNe s.root_node key = true ∧ key ∉ (s.removeOp key).cluster_roots
  · rw [if_pos hcond]
    simp only [Finset.mem_insert, mem_eraseAll]
    tauto
  · rw [if_neg hcond]
    rw [mem_eraseAll]
    tauto

theorem insertOp_root (s : Subtree) (key : Key) (n : Node) :
    (s.insertOp key n).root_node = s.root_node := by
  unfold Subtree.insertOp
  simp [removeOp_root]

theorem insertOp_nodes (s : Subtree) (key a : Key) (n : Node) :
    (s.insertOp key n).nodes a =
      if a = key then some n else (s.removeOp key).nodes a := by
  unfold Subtree.insertOp
  simp

theorem insertOp_nodes_self (s : Subtree) (key : Key) (n : Node) :
    (s.insertOp key n).nodes key = some n := by
  simp [insertOp_nodes]

theorem insertOp_wl_mem (s : Subtree) (key : Key) (n : Node) (a : Key) :
    a ∈ (s.insertOp key n).waitlist ↔
      (a ∈ (s.removeOp key).waitlist ∧ a ≠ key) ∨
        (a ∈ n.childKeys ∧ (s.removeOp key).nodes a = none) := by
  unfold Subtree.insertOp
  simp only
  rw [childUpdates_mem_fst]
  by_cases hkw : key ∈ (s.removeOp key).waitlist
  · rw [if_pos hkw]
    simp only [Finset.mem_erase]
    tauto
  · rw [if_neg hkw]
    by_cases hr : rootNe (s.removeOp key).root_node key = true
    · rw [if_pos hr]
      simp only
      constructor
      · rintro (hw | hc)
        · exact Or.inl ⟨hw, fun hak => hkw (hak ▸ hw)⟩
        · exact Or.inr hc
      · tauto
    · rw [if_neg hr]
      simp only
      constructor
      · rintro (hw | hc)
        · exact Or.inl ⟨hw, fun hak => hkw (hak ▸ hw)⟩
        · exact Or.inr hc
      · tauto

theorem insertOp_cr_mem (s : Subtree) (key : Key) (n : Node) (a : Key) :
    a ∈ (s.insertOp key n).cluster_roots ↔
      ((a ∈ (s.removeOp key).cluster_roots ∨
          (a = key ∧ key ∉ (s.removeOp key).waitlist ∧
            rootNe s.root_node key = true)) ∧ a ∉ n.childKeys) := by
  unfold Subtree.insertOp
  simp only
  rw [childUpdates_mem_snd]
  rw [removeOp_root]
  by_cases hkw : key ∈ (s.removeOp key).waitlist
  · rw [if_pos hkw]
    simp only
    tauto
  · rw [if_neg hkw]
    by_cases hr : rootNe s.root_node key = true
    · rw [if_pos hr]
      simp only [Finset.mem_insert]
      by_cases hak : a = key <;> simp [hak] <;> tauto
    · rw [if_neg hr]
      simp only
      tauto

/-- The waitlist-nodes disjointness half of the invariant survives a
remove on its own. -/
theorem removeOp_wl_nodes {s : Subtree} (k : Key)
    (h2 : ∀ c ∈ s.waitlist, s.nodes c = none) :
    ∀ c ∈ (s.removeOp k).waitlist, (s.removeOp k).nodes c = none := by
  intro c hc
  rw [removeOp_nodes]
  cases h : s.nodes k with
  | none => rw [removeOp_of_absent h] at hc; by_cases hck : c = k <;> simp [hck, h2 c hc, h]
  | some node =>
    rw [removeOp_wl_mem h] at hc
    rcases hc with ⟨hw, _⟩ | ⟨hck, _, _⟩
    · by_cases hck : c = k <;> simp [hck, h2 c hw]
    · simp [hck]

/-- Subtree::remove preserves the full invariant. -/
theorem removeOp_inv {s : Subtree} (k : Key) (hi : s.Inv) : (s.removeOp k).Inv := by
  obtain ⟨h1, h2⟩ := hi
  have h1m : ∀ a ∈ s.cluster_roots, a ∉ s.waitlist := by
    intro a ha hw
    have : a ∈ s.cluster_roots ∩ s.waitlist := Finset.mem_inter.mpr ⟨ha, hw⟩
    rw [h1] at this
    exact absurd this (Finset.not_mem_empty a)
  constructor
  · rw [Finset.eq_empty_iff_forall_not_mem]
    intro a ha
    rw [Finset.mem_inter] at ha
    obtain ⟨hacr, hawl⟩ := ha
    cases h : s.nodes k with
    | none =>
      rw [removeOp_of_absent h] at hacr hawl
      exact h1m a hacr hawl
    | some node =>
      rw [removeOp_cr_mem h] at hacr
      rw [removeOp_wl_mem h] at hawl
      rcases hawl with ⟨hw, _⟩ | ⟨hak, _, hkcr⟩
      · rcases hacr with hcr | ⟨_, _, hsome⟩
        · exact h1m a hcr hw
        · rw [h2 a hw] at hsome; simp at hsome
      · subst hak
        apply hkcr
        rw [removeOp_cr_mem h]
        exact hacr
  · exact removeOp_wl_nodes k h2

/-- Subtree::insert preserves the full invariant whenever the inserted
node does not claim its own key as a child. -/
theorem insertOp_inv {s : Subtree} (k : Key) (n : Node)
    (hl : n.left_child ≠ some k) (hr : n.right_child ≠ some k)
    (hi : s.Inv) : (s.insertOp k n).Inv := by
  have hck : k ∉ n.childKeys := by
    intro hmem
    unfold Node.childKeys at hmem
    rw [List.mem_append] at hmem
    rcases hmem with hmem | hmem
    · cases hl' : n.left_child with
      | none => rw [hl'] at hmem; simp at hmem
      | some c =>
        rw [hl'] at hmem; simp at hmem
        exact hl (by rw [hl', hmem])
    · cases hr' : n.right_child with
      | none => rw [hr'] at hmem; simp at hmem
      | some c =>
        rw [hr'] at hmem; simp at hmem
        exact hr (by rw [hr', hmem])
  have hri := removeOp_inv k hi
  obtain ⟨h1r, h2r⟩ := hri
  have h1rm : ∀ a ∈ (s.removeOp k).cluster_roots, a ∉ (s.removeOp k).waitlist := by
    intro a ha hw
    have : a ∈ (s.removeOp k).cluster_roots ∩ (s.removeOp k).waitlist :=
      Finset.mem_inter.mpr ⟨ha, hw⟩
    rw [h1r] at this
    exact absurd this (Finset.not_mem_empty a)
  constructor
  · rw [Finset.eq_empty_iff_forall_not_mem]
    intro a ha
    rw [Finset.mem_inter] at ha
    obtain ⟨hacr, hawl⟩ := ha
    rw [insertOp_cr_mem] at hacr
    rw [insertOp_wl_mem] at hawl
    obtain ⟨hacr1, hacks⟩ := hacr
    rcases hawl with ⟨hw, hak⟩ | ⟨hcks, _⟩
    · rcases hacr1 with hcr | ⟨hak', _⟩
      · exact h1rm a hcr hw
      · exact hak hak'
    · exact hacks hcks
  · intro c hc
    rw [insertOp_wl_mem] at hc
    rw [insertOp_nodes]
    rcases hc with ⟨hw, hck'⟩ | ⟨hcks, hnone⟩
    · rw [if_neg hck']
      exact h2r c hw
    · have hckne : c ≠ k := fun he => hck (he ▸ hcks)
      rw [if_neg hckne]
      exact hnone

/-- Claim C2, amended: for every subtree state reachable from the empty
or root-only state by removes and by inserts whose node does not list its
own key among its children, cluster_roots and waitlist are disjoint and
no waitlisted key is present in the nodes map. -/
theorem subtree_reachable_invariant (s : Subtree) (h : Subtree.ReachSafe s) :
    s.cluster_roots ∩ s.waitlist = ∅ ∧ ∀ k ∈ s.waitlist, s.nodes k = none := by
  induction h with
  | empty => exact ⟨rfl, by intro k hk; simp [Subtree.new] at hk⟩
  | root k => exact ⟨rfl, by intro c hc; simp [Subtree.new_root, Subtree.new] at hc⟩
  | insert k n hl hr _ ih => exact insertOp_inv k n hl hr ih
  | remove k _ ih => exact removeOp_inv k ih

/-- Claim C2, counterexample to the unrestricted statement: inserting a
node that lists its own key as its left child (a single insert from the
empty state, hence a reachable state) leaves the key both in the
waitlist and in the nodes map. -/
theorem subtree_invariant_counterexample :
    Subtree.Reach (Subtree.new.insertOp [0] (Node.new_item [] (some [0]) none)) ∧
    ¬ ((Subtree.new.insertOp [0] (Node.new_item [] (some [0]) none)).cluster_roots ∩
        (Subtree.new.insertOp [0] (Node.new_item [] (some [0]) none)).waitlist = ∅ ∧
      ∀ k ∈ (Subtree.new.insertOp [0] (Node.new_item [] (some [0]) none)).waitlist,
        (Subtree.new.insertOp [0] (Node.new_item [] (some [0]) none)).nodes k = none) := by
  constructor
  · exact Subtree.Reach.insert _ _ Subtree.Reach.empty
  · intro ⟨_, h2⟩
    have h0 : ([0] : Key) ∈ (Subtree.new.insertOp [0] (Node.new_item [] (some [0]) none)).waitlist := by decide
    have := h2 [0] h0
    revert this
    decide

/-- Witness for the amended claim C2 at a concrete reachable state. -/
theorem subtree_reachable_invariant_witness :
    (Subtree.new.insertOp [0] (Node.new_item [] (some [1]) (some [2]))).cluster_roots ∩
      (Subtree.new.insertOp [0] (Node.new_item [] (some [1]) (some [2]))).waitlist = ∅ ∧
    ∀ k ∈ (Subtree.new.insertOp [0] (Node.new_item [] (some [1]) (some [2]))).waitlist,
      (Subtree.new.insertOp [0] (Node.new_item [] (some [1]) (some [2]))).nodes k = none :=
  subtree_reachable_invariant _
    (Subtree.ReachSafe.insert [0] _ (by decide) (by decide) Subtree.ReachSafe.empty)

/-- Claim C3, amended: insert is idempotent on every subtree state whose
waitlist is disjoint from its nodes map (the invariant maintained by the
model): inserting the same node under the same key twice in a row leaves
nodes, cluster_roots and waitlist equal to the state after one insert. -/
theorem insert_idempotent (s : Subtree) (k : Key) (n : Node)
    (hwl : ∀ c ∈ s.waitlist, s.nodes c = none) :
    ((s.insertOp k n).insertOp k n).nodes = (s.insertOp k n).nodes ∧
    ((s.insertOp k n).insertOp k n).cluster_roots = (s.insertOp k n).cluster_roots ∧
    ((s.insertOp k n).insertOp k n).waitlist = (s.insertOp k n).waitlist := by
  have hs1wl : ∀ c ∈ (s.removeOp k).waitlist, (s.removeOp k).nodes c = none :=
    removeOp_wl_nodes k hwl
  have ht : (s.insertOp k n).nodes k = some n := insertOp_nodes_self s k n
  have hrn : ∀ a, ((s.insertOp k n).removeOp k).nodes a = (s.removeOp k).nodes a := by
    intro a
    rw [removeOp_nodes, insertOp_nodes]
    by_cases hak : a = k
    · subst hak; simp [removeOp_nodes_self]
    · simp [hak]
  have htcr_cks : ∀ b, b ∈ (s.insertOp k n).cluster_roots → b ∉ n.childKeys := by
    intro b hb
    rw [insertOp_cr_mem] at hb
    exact hb.2
  have hbridge : k ∉ ((s.insertOp k n).removeOp k).waitlist →
      rootNe s.root_node k = true → k ∈ (s.insertOp k n).cluster_roots := by
    intro hnw hR
    rw [removeOp_wl_mem ht k] at hnw
    rw [insertOp_root] at hnw
    have hkr : k ∈ ((s.insertOp k n).removeOp k).cluster_roots := by
      by_contra hkr
      exact hnw (Or.inr ⟨rfl, hR, hkr⟩)
    rw [removeOp_cr_mem ht k] at hkr
    rcases hkr with htcr | ⟨_, hkk, _⟩
    · exact htcr
    · exact absurd rfl hkk
  refine ⟨?_, ?_, ?_⟩
  · funext a
    rw [insertOp_nodes (s.insertOp k n) k a n, hrn a, insertOp_nodes s k a n]
  · apply Finset.ext
    intro a
    rw [insertOp_cr_mem (s.insertOp k n) k n a]
    rw [removeOp_cr_mem ht a]
    rw [insertOp_root]
    constructor
    · rintro ⟨h1 | ⟨hak, hnw, hR⟩, hncks⟩
      · rcases h1 with htcr | ⟨hcks, _, _⟩
        · exact htcr
        · exact absurd hcks hncks
      · subst hak
        exact hbridge hnw hR
    · intro htcr
      exact ⟨Or.inl (Or.inl htcr), htcr_cks a htcr⟩
  · apply Finset.ext
    intro a
    rw [insertOp_wl_mem (s.insertOp k n) k n a]
    rw [removeOp_wl_mem ht a]
    rw [insertOp_root]
    rw [insertOp_wl_mem s k n a]
    rw [hrn a]
    by_cases hak : a = k
    · subst hak
      have hk0 : (s.removeOp a).nodes a = none := removeOp_nodes_self s a
      constructor
      · rintro (⟨_, hne⟩ | ⟨hcks, _⟩)
        · exact absurd rfl hne
        · exact Or.inr ⟨hcks, hk0⟩
      · rintro (⟨_, hne⟩ | ⟨hcks, _⟩)
        · exact absurd rfl hne
        · exact Or.inr ⟨hcks, hk0⟩
    · have hs1a : a ∈ (s.removeOp k).waitlist → (s.removeOp k).nodes a = none :=
        fun h => hs1wl a h
      constructor
      · rintro (⟨h1, _⟩ | ⟨hcks, hnone⟩)
        · rcases h1 with ⟨htwl, _⟩ | ⟨hak', _⟩
          · exact htwl
          · exact absurd hak' hak
        · exact Or.inr ⟨hcks, hnone⟩
      · rintro (⟨hs1, _⟩ | ⟨hcks, hnone⟩)
        · by_cases hacks : a ∈ n.childKeys
          · exact Or.inr ⟨hacks, hs1a hs1⟩
          · exact Or.inl ⟨Or.inl ⟨Or.inl ⟨hs1, hak⟩, hacks⟩, hak⟩
        · exact Or.inr ⟨hcks, hnone⟩

/-- Claim C3, counterexample to the unrestricted statement: on the
reachable state produced by inserting a self-referencing node under key
0, inserting a node with left child 0 under key 1 twice empties the
waitlist while inserting it once leaves key 0 waitlisted. -/
theorem insert_idempotent_counterexample :
    Subtree.Reach (Subtree.new.insertOp [0] (Node.new_item [] (some [0]) none)) ∧
    ¬ ((((Subtree.new.insertOp [0] (Node.new_item [] (some [0]) none)).insertOp [1] (Node.new_item [] (some [0]) none)).insertOp [1] (Node.new_item [] (some [0]) none)).nodes =
      ((Subtree.new.insertOp [0] (Node.new_item [] (some [0]) none)).insertOp [1] (Node.new_item [] (some [0]) none)).nodes ∧
      (((Subtree.new.insertOp [0] (Node.new_item [] (some [0]) none)).insertOp [1] (Node.new_item [] (some [0]) none)).insertOp [1] (Node.new_item [] (some [0]) none)).cluster_roots =
      ((Subtree.new.insertOp [0] (Node.new_item [] (some [0]) none)).insertOp [1] (Node.new_item [] (some [0]) none)).cluster_roots ∧
      (((Subtree.new.insertOp [0] (Node.new_item [] (some [0]) none)).insertOp [1] (Node.new_item [] (some [0]) none)).insertOp [1] (Node.new_item [] (some [0]) none)).waitlist =
      ((Subtree.new.insertOp [0] (Node.new_item [] (some [0]) none)).insertOp [1] (Node.new_item [] (some [0]) none)).waitlist) := by
  refine ⟨Subtree.Reach.insert _ _ Subtree.Reach.empty, ?_⟩
  intro ⟨_, _, hwleq⟩
  have h1 : ([0] : Key) ∈ ((Subtree.new.insertOp [0] (Node.new_item [] (some [0]) none)).insertOp [1] (Node.new_item [] (some [0]) none)).waitlist := by decide
  have h2 : ([0] : Key) ∉ (((Subtree.new.insertOp [0] (Node.new_item [] (some [0]) none)).insertOp [1] (Node.new_item [] (some [0]) none)).insertOp [1] (Node.new_item [] (some [0]) none)).waitlist := by decide
  rw [hwleq] at h2
  exact h2 h1

/-- Witness for the amended claim C3 at the empty subtree. -/
theorem insert_idempotent_witness :
    (∀ c ∈ Subtree.new.waitlist, Subtree.new.nodes c = none) ∧
    (((Subtree.new.insertOp [0] (Node.new_item [] (some [1]) (some [2]))).insertOp [0] (Node.new_item [] (some [1]) (some [2]))).nodes =
     (Subtree.new.insertOp [0] (Node.new_item [] (some [1]) (some [2]))).nodes ∧
     ((Subtree.new.insertOp [0] (Node.new_item [] (some [1]) (some [2]))).insertOp [0] (Node.new_item [] (some [1]) (some [2]))).cluster_roots =
     (Subtree.new.insertOp [0] (Node.new_item [] (some [1]) (some [2]))).cluster_roots ∧
     ((Subtree.new.insertOp [0] (Node.new_item [] (some [1]) (some [2]))).insertOp [0] (Node.new_item [] (some [1]) (some [2]))).waitlist =
     (Subtree.new.insertOp [0] (Node.new_item [] (some [1]) (some [2]))).waitlist) :=
  ⟨by decide, insert_idempotent Subtree.new [0] _ (by decide)⟩

/-- Claim C4, amended: remove followed by reinsert of the same node
restores cluster_roots, waitlist and the nodes map, for every subtree
state in which the waitlist is disjoint from the nodes map, the removed
node does not list its own key as a child, every absent child of the
removed node is waitlisted, and no child of the removed node is a cluster
root.  All four conditions hold in every state built by inserts that
never drop a child edge to a still-present node; the counterexample shows
the claim fails without them. -/
theorem remove_reinsert_roundtrip (t : Subtree) (k : Key) (n : Node)
    (hk : t.nodes k = some n)
    (hwl : ∀ c ∈ t.waitlist, t.nodes c = none)
    (hchild_ne : ∀ c ∈ n.childKeys, c ≠ k)
    (hchild_wait : ∀ c ∈ n.childKeys, t.nodes c = none → c ∈ t.waitlist)
    (hchild_cr : ∀ c ∈ n.childKeys, c ∉ t.cluster_roots) :
    ((t.removeOp k).insertOp k n).cluster_roots = t.cluster_roots ∧
    ((t.removeOp k).insertOp k n).waitlist = t.waitlist ∧
    ((t.removeOp k).insertOp k n).nodes = t.nodes := by
  have hrr : (t.removeOp k).removeOp k = t.removeOp k :=
    removeOp_of_absent (removeOp_nodes_self t k)
  have hbridge : k ∉ (t.removeOp k).waitlist → rootNe t.root_node k = true →
      k ∈ t.cluster_roots := by
    intro hnw hR
    rw [removeOp_wl_mem hk k] at hnw
    have hkr : k ∈ (t.removeOp k).cluster_roots := by
      by_contra hkr
      exact hnw (Or.inr ⟨rfl, hR, hkr⟩)
    rw [removeOp_cr_mem hk k] at hkr
    rcases hkr with htcr | ⟨_, hkk, _⟩
    · exact htcr
    · exact absurd rfl hkk
  refine ⟨?_, ?_, ?_⟩
  · apply Finset.ext
    intro a
    rw [insertOp_cr_mem (t.removeOp k) k n a]
    rw [hrr]
    rw [removeOp_cr_mem hk a]
    rw [removeOp_root]
    by_cases hacks : a ∈ n.childKeys
    · constructor
      · rintro ⟨_, hncks⟩
        exact absurd hacks hncks
      · intro htcr
        exact absurd htcr (hchild_cr a hacks)
    · constructor
      · rintro ⟨h1 | ⟨hak, hnw, hR⟩, _⟩
        · rcases h1 with htcr | ⟨hcks, _, _⟩
          · exact htcr
          · exact absurd hcks hacks
        · subst hak
          exact hbridge hnw hR
      · intro htcr
        exact ⟨Or.inl (Or.inl htcr), hacks⟩
  · apply Finset.ext
    intro a
    rw [insertOp_wl_mem (t.removeOp k) k n a]
    rw [hrr]
    rw [removeOp_wl_mem hk a]
    rw [removeOp_nodes]
    by_cases hak : a = k
    · subst hak
      constructor
      · rintro (⟨_, hne⟩ | ⟨hcks, _⟩)
        · exact absurd rfl hne
        · exact absurd rfl (hchild_ne a hcks)
      · intro hw
        rw [hwl a hw] at hk
        exact absurd hk (by simp)
    · rw [if_neg hak]
      constructor
      · rintro (⟨h1, _⟩ | ⟨hcks, hnone⟩)
        · rcases h1 with ⟨htw, _⟩ | ⟨hak', _⟩
          · exact htw
          · exact absurd hak' hak
        · exact hchild_wait a hcks hnone
      · intro hw
        by_cases hacks : a ∈ n.childKeys
        · exact Or.inr ⟨hacks, hwl a hw⟩
        · exact Or.inl ⟨Or.inl ⟨hw, hacks⟩, hak⟩
  · funext a
    rw [insertOp_nodes (t.removeOp k) k a n]
    rw [hrr]
    rw [removeOp_nodes]
    by_cases hak : a = k
    · subst hak
      rw [if_pos rfl, hk]
    · rw [if_neg hak, if_neg hak]

/-- Claim C4, counterexample to the unrestricted statement: the state
below is built by a sequence of inserts only (the last insert re-fetches
key 2 with its child edge dropped, leaving key 1 a stale cluster root
that is still a child of key 0); removing key 0 and reinserting the very
same node then loses key 1 from cluster_roots. -/
theorem remove_reinsert_roundtrip_counterexample :
    ((((Subtree.new.insertOp [0] (Node.new_item [] (some [1]) none)).insertOp
      [2] (Node.new_item [] (some [1]) none)).insertOp
      [1] (Node.new_item [] none none)).insertOp
      [2] (Node.new_item [] none none)).nodes [0] =
      some (Node.new_item [] (some [1]) none) ∧
    ¬ (((((((Subtree.new.insertOp [0] (Node.new_item [] (some [1]) none)).insertOp
      [2] (Node.new_item [] (some [1]) none)).insertOp
      [1] (Node.new_item [] none none)).insertOp
      [2] (Node.new_item [] none none)).removeOp [0]).insertOp
      [0] (Node.new_item [] (some [1]) none)).cluster_roots =
      ((((Subtree.new.insertOp [0] (Node.new_item [] (some [1]) none)).insertOp
      [2] (Node.new_item [] (some [1]) none)).insertOp
      [1] (Node.new_item [] none none)).insertOp
      [2] (Node.new_item [] none none)).cluster_roots ∧
      ((((((Subtree.new.insertOp [0] (Node.new_item [] (some [1]) none)).insertOp
      [2] (Node.new_item [] (some [1]) none)).insertOp
      [1] (Node.new_item [] none none)).insertOp
      [2] (Node.new_item [] none none)).removeOp [0]).insertOp
      [0] (Node.new_item [] (some [1]) none)).waitlist =
      ((((Subtree.new.insertOp [0] (Node.new_item [] (some [1]) none)).insertOp
      [2] (Node.new_item [] (some [1]) none)).insertOp
      [1] (Node.new_item [] none none)).insertOp
      [2] (Node.new_item [] none none)).waitlist) := by
  constructor
  · decide
  · intro ⟨hcr, _⟩
    have h1 : ([1] : Key) ∈ ((((Subtree.new.insertOp [0]
      (Node.new_item [] (some [1]) none)).insertOp
      [2] (Node.new_item [] (some [1]) none)).insertOp
      [1] (Node.new_item [] none none)).insertOp
      [2] (Node.new_item [] none none)).cluster_roots := by decide
    have h2 : ([1] : Key) ∉ (((((((Subtree.new.insertOp [0]
      (Node.new_item [] (some [1]) none)).insertOp
      [2] (Node.new_item [] (some [1]) none)).insertOp
      [1] (Node.new_item [] none none)).insertOp
      [2] (Node.new_item [] none none)).removeOp [0]).insertOp
      [0] (Node.new_item [] (some [1]) none))).cluster_roots := by decide
    rw [hcr] at h2
    exact h2 h1

/-- Witness for the amended claim C4 on a concrete three node subtree. -/
theorem remove_reinsert_roundtrip_witness :
    ((((((Subtree.new_root [0]).insertOp [0] (Node.new_item [] (some [1]) (some [2]))).insertOp
      [1] (Node.new_item [] none none)).insertOp
      [2] (Node.new_item [] none none)).removeOp [0]).insertOp
      [0] (Node.new_item [] (some [1]) (some [2]))).cluster_roots =
    ((((Subtree.new_root [0]).insertOp [0] (Node.new_item [] (some [1]) (some [2]))).insertOp
      [1] (Node.new_item [] none none)).insertOp
      [2] (Node.new_item [] none none)).cluster_roots ∧
    ((((((Subtree.new_root [0]).insertOp [0] (Node.new_item [] (some [1]) (some [2]))).insertOp
      [1] (Node.new_item [] none none)).insertOp
      [2] (Node.new_item [] none none)).removeOp [0]).insertOp
      [0] (Node.new_item [] (some [1]) (some [2]))).waitlist =
    ((((Subtree.new_root [0]).insertOp [0] (Node.new_item [] (some [1]) (some [2]))).insertOp
      [1] (Node.new_item [] none none)).insertOp
      [2] (Node.new_item [] none none)).waitlist ∧
    ((((((Subtree.new_root [0]).insertOp [0] (Node.new_item [] (some [1]) (some [2]))).insertOp
      [1] (Node.new_item [] none none)).insertOp
      [2] (Node.new_item [] none none)).removeOp [0]).insertOp
      [0] (Node.new_item [] (some [1]) (some [2]))).nodes =
    ((((Subtree.new_root [0]).insertOp [0] (Node.new_item [] (some [1]) (some [2]))).insertOp
      [1] (Node.new_item [] none none)).insertOp
      [2] (Node.new_item [] none none)).nodes :=
  remove_reinsert_roundtrip _ [0] (Node.new_item [] (some [1]) (some [2]))
    (by decide) (by decide) (by decide) (by decide) (by decide)

/-! Proof stack machine theorems. -/

theorem setLeft_length (tree : List ProofNode) (i c : Nat) :
    (setLeft tree i c).length = tree.length := by
  unfold setLeft
  cases h : tree.get? i <;> simp

theorem setRight_length (tree : List ProofNode) (i c : Nat) :
    (setRight tree i c).length = tree.length := by
  unfold setRight
  cases h : tree.get? i <;> simp

/-- The op loop errors exactly when the stack-size semantics fails, and
on success the final stacks agree. -/
theorem fromIterLoop_spec (ops : List MerkProofOp) (tree : List ProofNode)
    (stack : List Nat) :
    (match fromIterLoop ops tree stack with
     | Except.ok ts => specStackRun ops tree.length stack = some ts.2
     | Except.error _ => specStackRun ops tree.length stack = none) := by
  induction ops generalizing tree stack with
  | nil => simp [fromIterLoop, specStackRun]
  | cons op rest ih =>
    cases op with
    | Push v =>
      have h := ih (tree ++ [ProofNode.ofValue v]) (tree.length :: stack)
      rw [List.length_append] at h
      simpa [fromIterLoop, specStackRun] using h
    | PushInverted v =>
      have h := ih (tree ++ [ProofNode.ofValue v]) (tree.length :: stack)
      rw [List.length_append] at h
      simpa [fromIterLoop, specStackRun] using h
    | Parent =>
      match stack with
      | [] => simp [fromIterLoop, specStackRun]
      | [a] => simp [fromIterLoop, specStackRun]
      | a :: b :: s3 =>
        have h := ih (setLeft tree a b) (a :: s3)
        rw [setLeft_length] at h
        simpa [fromIterLoop, specStackRun] using h
    | Child =>
      match stack with
      | [] => simp [fromIterLoop, specStackRun]
      | [a] => simp [fromIterLoop, specStackRun]
      | a :: b :: s3 =>
        have h := ih (setRight tree b a) (b :: s3)
        rw [setRight_length] at h
        simpa [fromIterLoop, specStackRun] using h
    | ParentInverted =>
      match stack with
      | [] => simp [fromIterLoop, specStackRun]
      | [a] => simp [fromIterLoop, specStackRun]
      | a :: b :: s3 =>
        have h := ih (setRight tree a b) (a :: s3)
        rw [setRight_length] at h
        simpa [fromIterLoop, specStackRun] using h
    | ChildInverted =>
      match stack with
      | [] => simp [fromIterLoop, specStackRun]
      | [a] => simp [fromIterLoop, specStackRun]
      | a :: b :: s3 =>
        have h := ih (setLeft tree b a) (b :: s3)
        rw [setLeft_length] at h
        simpa [fromIterLoop, specStackRun] using h

/-- Claim C5: proof reconstruction fails exactly on malformed input.  The
run succeeds exactly when the stack-size semantics of the op sequence
neither pops an attach op from a short stack nor finishes with a stack of
size other than one, and on success the single remaining index is the
returned proof root. -/
theorem from_iter_malformed_exactly (ops : List MerkProofOp) :
    exceptOkb (ProofSubtree.from_iter ops) = isSingle (specStackRun ops 0 []) ∧
    ∀ st, ProofSubtree.from_iter ops = Except.ok st →
      specStackRun ops 0 [] = some [st.root] := by
  have h := fromIterLoop_spec ops [] []
  unfold ProofSubtree.from_iter
  cases hE : fromIterLoop ops [] [] with
  | error e =>
    rw [hE] at h
    simp only at h
    rw [show ([] : List ProofNode).length = 0 from rfl] at h
    rw [h]
    exact ⟨rfl, by intro st hst; exact absurd hst (by simp)⟩
  | ok ts =>
    rw [hE] at h
    simp only at h
    rw [show ([] : List ProofNode).length = 0 from rfl] at h
    rw [h]
    obtain ⟨tree2, stack2⟩ := ts
    match stack2 with
    | [] => exact ⟨rfl, by intro st hst; exact absurd hst (by simp)⟩
    | [r] =>
      refine ⟨rfl, ?_⟩
      intro st hst
      simp only [Except.ok.injEq] at hst
      rw [← hst]
    | r1 :: r2 :: rest => exact ⟨rfl, by intro st hst; exact absurd hst (by simp)⟩

/-- Witness for claim C5: the theorem applied to the op sequence
Push x, Push y, Parent forces the spec stack to the singleton root. -/
theorem from_iter_malformed_exactly_witness :
    specStackRun [MerkProofOp.Push ⟨0⟩, MerkProofOp.Push ⟨1⟩, MerkProofOp.Parent] 0 [] =
      some [1] :=
  (from_iter_malformed_exactly
    [MerkProofOp.Push ⟨0⟩, MerkProofOp.Push ⟨1⟩, MerkProofOp.Parent]).2
    { tree := [ProofNode.ofValue ⟨0⟩,
               { ProofNode.ofValue ⟨1⟩ with left := some 0 }], root := 1 }
    (by rfl)

/-- Claim C1, amended: running the machine on Push x, Push y, Parent
succeeds with a final stack of exactly one index, the root is the node
for y (the top of the stack is popped as the parent), and the node for y
has its left-child index set to the index of the node for x, while the
node for x keeps no children. -/
theorem push_push_parent_links_y_to_x (x y : MerkProofNode) :
    ProofSubtree.from_iter [MerkProofOp.Push x, MerkProofOp.Push y, MerkProofOp.Parent] =
      Except.ok { tree := [ProofNode.ofValue x,
                           { ProofNode.ofValue y with left := some 0 }], root := 1 } :=
  rfl

/-- Claim C1, counterexample to the stated child direction: in the result
of Push x, Push y, Parent the node for x (index 0) has no left child at
all, in particular not the index of the node for y. -/
theorem push_push_parent_counterexample :
    ProofSubtree.from_iter
        [MerkProofOp.Push ⟨0⟩, MerkProofOp.Push ⟨1⟩, MerkProofOp.Parent] =
      Except.ok { tree := [ProofNode.ofValue ⟨0⟩,
                           { ProofNode.ofValue ⟨1⟩ with left := some 0 }], root := 1 } ∧
    (ProofNode.ofValue ⟨0⟩).left = none ∧
    (ProofNode.ofValue ⟨0⟩).left ≠ some 1 :=
  ⟨rfl, rfl, by decide⟩

/-! Path interner theorems. -/

theorem childrenOf_mem_lt {ctx : PathCtx} {p : PathId} (hwf : ctx.WF)
    (hp : ctx.validPath p) : ∀ id ∈ ctx.childrenOf p, id < ctx.slab.length := by
  intro id hid
  cases p with
  | none => exact hwf.1 id hid
  | some pid =>
    have hid2 : id ∈ ((ctx.slab.get? pid).map (·.children_slab_ids)).getD [] := hid
    cases hs : ctx.slab.get? pid with
    | none => rw [hs] at hid2; simp at hid2
    | some seg =>
      rw [hs] at hid2
      simp at hid2
      exact hwf.2 seg (List.get?_mem hs) id hid2

theorem child_found {ctx : PathCtx} {p : PathId} {b : Key} {cid : Nat}
    (h : (ctx.childrenOf p).find? (fun id => ctx.bytesAt id == some b) = some cid) :
    ctx.child p b = (ctx, some cid) := by
  unfold PathCtx.child
  rw [h]

theorem child_fresh_snd {ctx : PathCtx} {p : PathId} {b : Key}
    (h : (ctx.childrenOf p).find? (fun id => ctx.bytesAt id == some b) = none) :
    (ctx.child p b).2 = some ctx.slab.length := by
  unfold PathCtx.child
  rw [h]
  cases p <;> rfl

theorem child_fresh_len {ctx : PathCtx} {p : PathId} {b : Key}
    (h : (ctx.childrenOf p).find? (fun id => ctx.bytesAt id == some b) = none) :
    (ctx.child p b).1.slab.length = ctx.slab.length + 1 := by
  unfold PathCtx.child
  rw [h]
  cases p with
  | none => simp
  | some pid => simp

theorem child_fresh_bytes_new {ctx : PathCtx} {p : PathId} {b : Key}
    (hp : ctx.validPath p)
    (h : (ctx.childrenOf p).find? (fun id => ctx.bytesAt id == some b) = none) :
    (ctx.child p b).1.bytesAt ctx.slab.length = some b := by
  unfold PathCtx.child
  rw [h]
  cases p with
  | none =>
    unfold PathCtx.bytesAt
    simp only
    rw [List.get?_eq_getElem?, List.getElem?_concat_length]
    rfl
  | some pid =>
    have hpid : pid ≠ ctx.slab.length := Nat.ne_of_lt hp
    unfold PathCtx.bytesAt
    simp only
    rw [List.get?_eq_getElem?, List.getElem?_set_ne hpid, List.getElem?_concat_length]
    rfl

theorem child_fresh_bytes_old {ctx : PathCtx} {p : PathId} {b : Key}
    (h : (ctx.childrenOf p).find? (fun id => ctx.bytesAt id == some b) = none)
    (id : Nat) (hid : id < ctx.slab.length) :
    (ctx.child p b).1.bytesAt id = ctx.bytesAt id := by
  unfold PathCtx.child
  rw [h]
  cases p with
  | none =>
    simp [PathCtx.bytesAt, List.get?_eq_getElem?, List.getElem?_append, hid]
  | some pid =>
    have hid1 : id < ctx.slab.length + 1 := Nat.lt_succ_of_lt hid
    cases hs : ctx.slab[id]? with
    | none =>
      rw [List.getElem?_eq_none_iff] at hs
      omega
    | some pseg0 =>
      obtain ⟨hlt9, hv⟩ := List.getElem?_eq_some_iff.mp hs
      by_cases hpd : pid = id
      · simp [PathCtx.bytesAt, List.get?_eq_getElem?, List.getElem?_set, hpd, hid, hid1, hs,
          List.getElem?_append, List.getElem_append_left, List.getElem_set, hv,
          List.getElem_append_left hid]
      · simp [PathCtx.bytesAt, List.get?_eq_getElem?, List.getElem?_set, hpd, hid, hid1, hs,
          List.getElem?_append, List.getElem_append_left hid, hv]

theorem child_fresh_children {ctx : PathCtx} {p : PathId} {b : Key}
    (hp : ctx.validPath p)
    (h : (ctx.childrenOf p).find? (fun id => ctx.bytesAt id == some b) = none) :
    (ctx.child p b).1.childrenOf p = ctx.childrenOf p ++ [ctx.slab.length] := by
  unfold PathCtx.child
  rw [h]
  cases p with
  | none => rfl
  | some pid =>
    have hp2 : pid < ctx.slab.length := hp
    have hp1 : pid < ctx.slab.length + 1 := Nat.lt_succ_of_lt hp2
    cases hs : ctx.slab[pid]? with
    | none =>
      rw [List.getElem?_eq_none_iff] at hs
      omega
    | some pseg0 =>
      obtain ⟨hlt9, hv⟩ := List.getElem?_eq_some_iff.mp hs
      simp [PathCtx.childrenOf, List.get?_eq_getElem?, List.getElem?_set, hp2, hp1, hs,
        List.getElem?_append, List.getElem_append_left, List.getElem_set, hv,
        List.length_set, List.length_append]

theorem validPath_child_fresh {ctx : PathCtx} {p : PathId} {b : Key}
    (hp : ctx.validPath p)
    (h : (ctx.childrenOf p).find? (fun id => ctx.bytesAt id == some b) = none) :
    (ctx.child p b).1.validPath p := by
  cases p with
  | none => trivial
  | some pid =>
    show pid < (ctx.child (some pid) b).1.slab.length
    rw [child_fresh_len h]
    exact Nat.lt_succ_of_lt hp

/-- Claim C6: structural sharing of interned paths.  A second child call
with the same parent and the same bytes returns the same interner and the
same handle; a child call with the same parent and different bytes
returns a different handle. -/
theorem path_child_structural_sharing (ctx : PathCtx) (p : PathId) (b b' : Key)
    (hwf : ctx.WF) (hp : ctx.validPath p) :
    (ctx.child p b).1.child p b = ctx.child p b ∧
    (b' ≠ b → ((ctx.child p b).1.child p b').2 ≠ (ctx.child p b).2) := by
  cases hf : (ctx.childrenOf p).find? (fun id => ctx.bytesAt id == some b) with
  | some cid =>
    have hcb : ctx.bytesAt cid = some b := by
      have := List.find?_some hf
      simpa [beq_iff_eq] using this
    have h1 : ctx.child p b = (ctx, some cid) := child_found hf
    constructor
    · rw [h1]
      exact h1
    · intro hbb
      rw [h1]
      simp only
      cases hf' : (ctx.childrenOf p).find? (fun id => ctx.bytesAt id == some b') with
      | some cid' =>
        have hcb' : ctx.bytesAt cid' = some b' := by
          have := List.find?_some hf'
          simpa [beq_iff_eq] using this
        rw [child_found hf']
        simp only [ne_eq, Option.some.injEq]
        intro he
        subst he
        rw [hcb] at hcb'
        have hbe : b = b' := by injection hcb'
        exact hbb hbe.symm
      | none =>
        rw [child_fresh_snd hf']
        have hlt : cid < ctx.slab.length :=
          childrenOf_mem_lt hwf hp cid (List.mem_of_find?_eq_some hf)
        simp only [ne_eq, Option.some.injEq]
        omega
  | none =>
    have hsnd := child_fresh_snd hf
    have hfind1 : ((ctx.child p b).1.childrenOf p).find?
        (fun id => (ctx.child p b).1.bytesAt id == some b) = some ctx.slab.length := by
      rw [child_fresh_children hp hf]
      rw [List.find?_append]
      have hold : (ctx.childrenOf p).find?
          (fun id => (ctx.child p b).1.bytesAt id == some b) = none := by
        rw [List.find?_eq_none]
        intro x hx
        have hxlt := childrenOf_mem_lt hwf hp x hx
        rw [child_fresh_bytes_old hf x hxlt]
        have := List.find?_eq_none.mp hf x hx
        simpa using this
      rw [hold]
      have hnew : ((ctx.child p b).1.bytesAt ctx.slab.length == some b) = true := by
        rw [child_fresh_bytes_new hp hf]
        simp
      simp [List.find?, hnew]
    constructor
    · have h2 : (ctx.child p b).1.child p b = ((ctx.child p b).1, some ctx.slab.length) :=
        child_found hfind1
      rw [h2]
      have : ctx.child p b = ((ctx.child p b).1, (ctx.child p b).2) := rfl
      rw [this, hsnd]
    · intro hbb
      rw [hsnd]
      cases hf' : ((ctx.child p b).1.childrenOf p).find?
          (fun id => (ctx.child p b).1.bytesAt id == some b') with
      | some cid' =>
        have hcb' : (ctx.child p b).1.bytesAt cid' = some b' := by
          have := List.find?_some hf'
          simpa [beq_iff_eq] using this
        rw [child_found hf']
        simp only [ne_eq, Option.some.injEq]
        intro he
        subst he
        rw [child_fresh_bytes_new hp hf] at hcb'
        have hbe : b = b' := by injection hcb'
        exact hbb hbe.symm
      | none =>
        rw [child_fresh_snd hf']
        rw [child_fresh_len hf]
        simp only [ne_eq, Option.some.injEq]
        omega

/-- Witness for claim C6 at the empty interner and the root path. -/
theorem path_child_structural_sharing_witness :
    ((PathCtx.new.child none [0]).1.child none [0] = PathCtx.new.child none [0]) ∧
    ((PathCtx.new.child none [0]).1.child none [1]).2 ≠ (PathCtx.new.child none [0]).2 :=
  ⟨(path_child_structural_sharing PathCtx.new none [0] [1]
      (by decide) (by trivial)).1,
   (path_child_structural_sharing PathCtx.new none [0] [1]
      (by decide) (by trivial)).2 (by decide)⟩

/-- Claim C7: equality, hash and order of Path handles are functions of
the segment reference alone.  Two handles of the same interner are equal
exactly when they hold the same head segment id; equal references yield
equal hash inputs (the byte walk is determined by the reference); and the
order comparison yields eq exactly on equal references. -/
theorem path_identity_by_segment (ctx : PathCtx) (p q : PathId) :
    (pathEqb p q = true ↔ p = q) ∧
    (p = q → pathHashInput ctx p = pathHashInput ctx q) ∧
    (pathCmp ctx p q = Ordering.eq ↔ p = q) := by
  refine ⟨?_, ?_, ?_⟩
  · unfold pathEqb
    exact beq_iff_eq
  · intro h
    rw [h]
  · unfold pathCmp
    constructor
    · intro h
      cases hl : compare (ctx.levelOf p) (ctx.levelOf q) with
      | lt => rw [hl] at h; exact absurd h (by simp [Ordering.then])
      | gt => rw [hl] at h; exact absurd h (by simp [Ordering.then])
      | eq =>
        rw [hl] at h
        have h2 : optNatCmp p q = Ordering.eq := h
        cases p with
        | none =>
          cases q with
          | none => rfl
          | some b => exact absurd h2 (by simp [optNatCmp])
        | some a =>
          cases q with
          | none => exact absurd h2 (by simp [optNatCmp])
          | some b =>
            have : a = b := Nat.compare_eq_eq.mp h2
            rw [this]
    · intro h
      subst h
      have h1 : compare (ctx.levelOf p) (ctx.levelOf p) = Ordering.eq :=
        compare_eq_iff_eq.mpr rfl
      rw [h1]
      show optNatCmp p p = Ordering.eq
      cases p with
      | none => rfl
      | some a => exact Nat.compare_eq_eq.mpr rfl

/-- Witness for claim C7 at a concrete interner and handle. -/
theorem path_identity_by_segment_witness :
    pathEqb (some 0) (some 0) = true ∧
    pathHashInput PathCtx.new (some 0) = pathHashInput PathCtx.new (some 0) ∧
    pathCmp PathCtx.new (some 0) (some 0) = Ordering.eq :=
  ⟨(path_identity_by_segment PathCtx.new (some 0) (some 0)).1.mpr rfl,
   (path_identity_by_segment PathCtx.new (some 0) (some 0)).2.1 rfl,
   (path_identity_by_segment PathCtx.new (some 0) (some 0)).2.2.mpr rfl⟩

/-! Reference conversion theorems. -/

theorem popLast_eq_none_iff (l : List Key) : popLast l = none ↔ l = [] := by
  unfold popLast
  cases hr : l.reverse with
  | nil =>
    have : l = [] := List.reverse_eq_nil_iff.mp hr
    simp [this]
  | cons k r =>
    have : l ≠ [] := by
      intro he
      rw [he] at hr
      exact absurd hr (by simp)
    simp [this]

theorem popLast_concat (l : List Key) (a : Key) : popLast (l ++ [a]) = some (l, a) := by
  unfold popLast
  rw [List.reverse_append]
  simp

theorem popLast_append_concat (l1 l2 : List Key) (a : Key) :
    popLast (l1 ++ (l2 ++ [a])) = some (l1 ++ l2, a) := by
  rw [← List.append_assoc]
  exact popLast_concat _ _

/-- Claim C9, amended: each reference rewriting conversion is a pure
function of the current path and the payload; the absolute-path and the
two plain upstream-by-height conversions return the reference-without-key
error exactly when the rewritten address (which carries the key as its
last segment) is empty, while the parent-path-addition, cousin and
removed-cousin conversions return it exactly when the current path is
empty (there is no parent segment to rewrite, even though the key part of
the address is present), and the sibling conversion never fails. -/
theorem reference_conversion_error_conditions (path pathAppend swapParentList : List Key)
    (nKeep nRemove : Nat) (key swapParent sibKey : Key) :
    (from_absolute_path_reference path = Except.error ReferenceWithoutKey.mk ↔
      path = []) ∧
    (from_upstream_root_height_reference path nKeep pathAppend =
        Except.error ReferenceWithoutKey.mk ↔ path.take nKeep ++ pathAppend = []) ∧
    (from_upstream_element_height_reference path nRemove pathAppend =
        Except.error ReferenceWithoutKey.mk ↔
      path.take (path.length - (nRemove + 1)) ++ pathAppend = []) ∧
    (from_upstream_root_height_with_parent_path_addition_reference path nKeep pathAppend =
        Except.error ReferenceWithoutKey.mk ↔ path = []) ∧
    (from_cousin_reference path key swapParent = Except.error ReferenceWithoutKey.mk ↔
      path = []) ∧
    (from_removed_cousin_reference path key swapParentList =
        Except.error ReferenceWithoutKey.mk ↔ path = []) ∧
    from_sibling_reference path sibKey = (path, sibKey) := by
  refine ⟨?_, ?_, ?_, ?_, ?_, ?_, rfl⟩
  · unfold from_absolute_path_reference
    cases hpl : popLast path with
    | none =>
      have h0 := (popLast_eq_none_iff path).mp hpl
      simp [h0]
    | some pk =>
      have hne : path ≠ [] := by
        intro he
        rw [(popLast_eq_none_iff path).mpr he] at hpl
        exact Option.noConfusion hpl
      simp [hne]
  · unfold from_upstream_root_height_reference
    cases hpl : popLast (path.take nKeep ++ pathAppend) with
    | none =>
      have h0 := (popLast_eq_none_iff (path.take nKeep ++ pathAppend)).mp hpl
      simp [h0]
    | some pk =>
      have hne : path.take nKeep ++ pathAppend ≠ [] := by
        intro he
        rw [(popLast_eq_none_iff (path.take nKeep ++ pathAppend)).mpr he] at hpl
        exact Option.noConfusion hpl
      simp [hne]
  · unfold from_upstream_element_height_reference
    cases hpl : popLast (path.take (path.length - (nRemove + 1)) ++ pathAppend) with
    | none =>
      have h0 :=
        (popLast_eq_none_iff (path.take (path.length - (nRemove + 1)) ++ pathAppend)).mp hpl
      simp [h0]
    | some pk =>
      have hne : path.take (path.length - (nRemove + 1)) ++ pathAppend ≠ [] := by
        intro he
        rw [(popLast_eq_none_iff
          (path.take (path.length - (nRemove + 1)) ++ pathAppend)).mpr he] at hpl
        exact Option.noConfusion hpl
      simp [hne]
  · unfold from_upstream_root_height_with_parent_path_addition_reference
    cases hpl : popLast path with
    | none =>
      have h0 := (popLast_eq_none_iff path).mp hpl
      simp [h0]
    | some pk =>
      have hne : path ≠ [] := by
        intro he
        rw [(popLast_eq_none_iff path).mpr he] at hpl
        exact Option.noConfusion hpl
      obtain ⟨rest, parent⟩ := pk
      simp [hne, popLast_concat, popLast_append_concat]
  · unfold from_cousin_reference
    cases hpl : popLast path with
    | none =>
      have h0 := (popLast_eq_none_iff path).mp hpl
      simp [h0]
    | some pk =>
      have hne : path ≠ [] := by
        intro he
        rw [(popLast_eq_none_iff path).mpr he] at hpl
        exact Option.noConfusion hpl
      obtain ⟨rest, parent⟩ := pk
      simp [hne]
  · unfold from_removed_cousin_reference
    cases hpl : popLast path with
    | none =>
      have h0 := (popLast_eq_none_iff path).mp hpl
      simp [h0]
    | some pk =>
      have hne : path ≠ [] := by
        intro he
        rw [(popLast_eq_none_iff path).mpr he] at hpl
        exact Option.noConfusion hpl
      obtain ⟨rest, parent⟩ := pk
      simp [hne]

/-- Claim C9, counterexample to the stated failure condition: a cousin
reference arriving at the root subtree (empty current path) is rejected
with the reference-without-key error although the rewritten address under
the specification reading (rewritten path plus the node key) is not
empty. -/
theorem reference_conversion_counterexample :
    from_cousin_reference [] [0] [1] = Except.error ReferenceWithoutKey.mk ∧
    cousinRewrittenAddressSpec [] [0] [1] ≠ [] :=
  ⟨rfl, by decide⟩

/-! Tree of subtrees theorems. -/

/-- Claim C10: clear_subtree empties the nodes map of the subtree at the
path while keeping its root_node, cluster_roots and waitlist (the map
form keeps every field but nodes), leaves every other subtree untouched,
and is a no-op for a path that is not in the map. -/
theorem clear_subtree_frame (t : Tree) (p : List Key) :
    ((t.clear_subtree p).subtrees p =
      (t.subtrees p).map (fun st => { st with nodes := fun _ => none })) ∧
    (∀ q, q ≠ p → (t.clear_subtree p).subtrees q = t.subtrees q) ∧
    (t.subtrees p = none → t.clear_subtree p = t) := by
  unfold Tree.clear_subtree Tree.updateAt
  cases h : t.subtrees p with
  | none =>
    refine ⟨by simp [h], fun q hq => rfl, fun _ => rfl⟩
  | some st =>
    refine ⟨by simp, ?_, ?_⟩
    · intro q hq
      simp [hq]
    · intro habs
      exact absurd habs (by simp)

/-- Witness for claim C10 at a concrete one-subtree tree. -/
theorem clear_subtree_frame_witness :
    ((Tree.mk (fun q => if q = [[0]] then some (Subtree.new_root [1]) else none)).clear_subtree
        [[0]]).subtrees [[1]] =
      (Tree.mk (fun q => if q = [[0]] then some (Subtree.new_root [1]) else none)).subtrees
        [[1]] ∧
    ((Tree.mk (fun q => if q = [[5]] then some (Subtree.new_root [1]) else none)).clear_subtree
        [[9]]) =
      Tree.mk (fun q => if q = [[5]] then some (Subtree.new_root [1]) else none) :=
  ⟨(clear_subtree_frame _ [[0]]).2.1 [[1]] (by decide),
   (clear_subtree_frame _ [[9]]).2.2 (by rfl)⟩

/-! Subtree chain population theorems. -/

theorem populateRev_frame (rev : List Key) (t : Tree) (q : List Key)
    (hq : rev.length ≤ q.length) : (t.populateRev rev).subtrees q = t.subtrees q := by
  induction rev generalizing t with
  | nil => rfl
  | cons key restRev ih =>
    show ((t.updateAt restRev.reverse _).populateRev restRev).subtrees q = _
    have hq2 : restRev.length ≤ q.length := by
      simp only [List.length_cons] at hq
      omega
    rw [ih _ hq2]
    unfold Tree.updateAt
    simp only
    rw [if_neg]
    intro he
    rw [he] at hq
    simp only [List.length_cons, List.length_reverse] at hq
    omega

theorem populateRev_prefix (p : List Key) :
    ∀ (t : Tree) (i : Nat) (hi : i < p.length),
      (t.populateRev p.reverse).subtrees (p.take i) =
        some (((t.subtrees (p.take i)).getD Subtree.new).insert_not_exists
          (p.get ⟨i, hi⟩) Node.new_subtree_placeholder) := by
  induction p using List.reverseRecOn with
  | nil => intro t i hi; exact absurd hi (by simp)
  | append_singleton q a ih =>
    intro t i hi
    have hrev : (q ++ [a]).reverse = a :: q.reverse := by
      rw [List.reverse_append]
      rfl
    rw [hrev]
    show ((t.updateAt ((q.reverse).reverse)
        (((t.subtrees ((q.reverse).reverse)).getD Subtree.new).insert_not_exists a
          Node.new_subtree_placeholder)).populateRev q.reverse).subtrees
        ((q ++ [a]).take i) = _
    rw [List.reverse_reverse]
    by_cases hiq : i = q.length
    · subst hiq
      rw [List.take_left]
      rw [populateRev_frame q.reverse _ q (by simp)]
      have hget : (q ++ [a]).get ⟨q.length, hi⟩ = a :=
        List.getElem_concat_length q a q.length rfl hi
      rw [hget]
      simp [Tree.updateAt]
    · have hilt : i < q.length := by
        simp only [List.length_append, List.length_cons, List.length_nil] at hi
        omega
      have htk : (q ++ [a]).take i = q.take i :=
        List.take_append_of_le_length (Nat.le_of_lt hilt)
      have hget : (q ++ [a]).get ⟨i, hi⟩ = q.get ⟨i, hilt⟩ := by
        show (q ++ [a])[i] = q[i]
        exact List.getElem_append_left hilt
      rw [htk, hget]
      rw [ih _ i hilt]
      have hne : q.take i ≠ q := by
        intro he
        have hlen : (q.take i).length = q.length := by rw [he]
        simp only [List.length_take] at hlen
        omega
      simp [Tree.updateAt, hne]

/-- Claim C8, amended: before a node is inserted at a deep path the
chain population step guarantees, for any starting tree whose
intermediate subtrees do not already hold a node under the next segment
key of the chain, that every subtree from the root down to but not
including the target path exists in the map with a Placeholder node
recorded under the next path segment, and that the subtree at the target
path itself exists with its nodes map unchanged, so no Placeholder is
created there.  The restriction is necessary: insert_not_exists keeps an
already-present node, so on a chain that already holds a real node no
Placeholder is recorded (see the counterexample below). -/
theorem populate_subtrees_chain_spec (t : Tree) (p : List Key)
    (hfresh : ∀ i (hi : i < p.length) st, t.subtrees (p.take i) = some st →
      st.nodes (p.get ⟨i, hi⟩) = none) :
    (∀ i (hi : i < p.length), ∃ st,
      (t.populate_subtrees_chain p).subtrees (p.take i) = some st ∧
      st.nodes (p.get ⟨i, hi⟩) = some Node.new_subtree_placeholder) ∧
    (∃ st, (t.populate_subtrees_chain p).subtrees p = some st ∧
      ∀ k, st.nodes k = ((t.subtrees p).getD Subtree.new).nodes k) := by
  have ht0p : (t.entryOrDefault p).subtrees p = some ((t.subtrees p).getD Subtree.new) := by
    unfold Tree.entryOrDefault Tree.updateAt
    cases h : t.subtrees p with
    | none => simp
    | some st => simp [h]
  have ht0q : ∀ q, q ≠ p → (t.entryOrDefault p).subtrees q = t.subtrees q := by
    intro q hq
    unfold Tree.entryOrDefault Tree.updateAt
    cases h : t.subtrees p with
    | none => simp [hq]
    | some st => rfl
  constructor
  · intro i hi
    have hne : p.take i ≠ p := by
      intro he
      have : (p.take i).length = p.length := by rw [he]
      simp at this
      omega
    have hpre := populateRev_prefix p (t.entryOrDefault p) i hi
    rw [ht0q _ hne] at hpre
    unfold Tree.populate_subtrees_chain
    refine ⟨_, hpre, ?_⟩
    unfold Subtree.insert_not_exists
    have hnone : (((t.subtrees (p.take i)).getD Subtree.new).nodes (p.get ⟨i, hi⟩)).isSome =
        false := by
      cases h : t.subtrees (p.take i) with
      | none => simp [Subtree.new]
      | some st =>
        simp only [Option.getD_some]
        rw [hfresh i hi st h]
        rfl
    rw [if_neg (by rw [hnone]; simp)]
    exact insertOp_nodes_self _ _ _
  · unfold Tree.populate_subtrees_chain
    rw [populateRev_frame p.reverse _ p (by simp)]
    exact ⟨_, ht0p, fun k => rfl⟩

/-- Witness for claim C8: the deep-insert scenario from the empty tree at
path 1/2/3/4; the root subtree holds a placeholder for segment 2 at index
position one of the chain. -/
theorem populate_subtrees_chain_spec_witness :
    ∃ st, ((Tree.mk (fun _ => none)).populate_subtrees_chain
        [[1], [2], [3], [4]]).subtrees ([[1], [2], [3], [4]].take 1) = some st ∧
      st.nodes ([[1], [2], [3], [4]].get ⟨1, by decide⟩) =
        some Node.new_subtree_placeholder :=
  (populate_subtrees_chain_spec (Tree.mk (fun _ => none)) [[1], [2], [3], [4]]
      (by intro i hi st h; exact Option.noConfusion h)).1 1 (by decide)

/-- Claim C8, counterexample to the unrestricted statement: on a tree
whose root subtree already holds a real Item node under key 1 (a routine
state, reached for example by a prior insert at the root), chain
population towards path 1/2 keeps that Item node via insert_not_exists,
so the intermediate subtree does not have a Placeholder node recorded for
the next segment key. -/
theorem populate_subtrees_chain_counterexample :
    ((((Tree.mk (fun q => if q = ([] : List Key) then
          some (Subtree.new.insertOp [1] (Node.new_item [] none none)) else
          none)).populate_subtrees_chain [[1], [2]]).subtrees
        ([] : List Key)).map (fun st => st.nodes [1])) =
      some (some (Node.new_item [] none none)) ∧
    Node.new_item [] none none ≠ Node.new_subtree_placeholder := by
  constructor
  · decide
  · decide

end GroveDbg
